import Mathlib

/-!
Verification of the leads-management data pipeline
(`src/preview/js/leads-management.js`).

The JavaScript module is shallowly embedded: strings are `List Char`,
a record (a JS object produced by the CSV parser or the JSON store) is an
association list of (field name, field value) pairs, and the mutable
`LeadsManager` instance is a `MState` structure threaded explicitly.
A JS value that may be `undefined` (a missing object field) is an
`Option`.  Code that can throw a `TypeError` is modelled in `Option`:
`none` is an uncaught exception.
-/

/-- JS strings are modelled as lists of characters. -/
abbrev Str := List Char

/-- Coerce a Lean string literal to the model's string type. -/
def chars (s : String) : Str := s.data

/-- Whitespace test used by the model of `String.prototype.trim`. -/
def isWs (c : Char) : Bool := c = ' ' || c = '\t' || c = '\n' || c = '\r'

/-- Model of JS `s.trim()`: drop whitespace from both ends. -/
def jsTrim (s : Str) : Str :=
  ((s.dropWhile isWs).reverse.dropWhile isWs).reverse

/-- Model of JS `s.split(sep)` for a one-character separator. -/
def splitCh (sep : Char) (l : Str) : List Str :=
  l.foldr
    (fun c acc =>
      if c = sep then [] :: acc
      else
        match acc with
        | [] => [[c]]
        | a :: as => (c :: a) :: as)
    [[]]

/-- Model of JS `s.replace(/"/g, '')`: remove every double quote. -/
def removeQuotes (s : Str) : Str := s.filter (fun c => c ≠ '"')

/-- The `isStartOf pat text`: `pat` is a leading segment of `text`. -/
def isStartOf : Str → Str → Bool
  | [], _ => true
  | _ :: _, [] => false
  | p :: ps, t :: ts => p = t && isStartOf ps ts

/-- Model of JS `text.includes(pat)`: `pat` occurs contiguously in `text`. -/
def seqContains (text pat : Str) : Bool :=
  match text with
  | [] => isStartOf pat []
  | _ :: rest => isStartOf pat text || seqContains rest pat

/-- Model of JS `s.toLowerCase()` (ASCII range, which covers this module's data). -/
def toLowerStr (s : Str) : Str := s.map Char.toLower

/-- A lead record: a JS object as an ordered association list of
string fields.  (A JS object cannot hold two fields of the same name;
where that matters the theorems assume `Nodup` keys.) -/
abbrev Record := List (Str × Str)

/-- Model of JS field access `obj[key]`: `none` is `undefined`. -/
def getField (r : Record) (k : Str) : Option Str :=
  match r with
  | [] => none
  | (k', v) :: rest => if k' = k then some v else getField rest k

/-- Model of JS strict equality `===` between two possibly-`undefined`
string values: `undefined === undefined` is `true`, `undefined === s` is
`false`, and two strings compare by content — never by numeric coercion. -/
def strictEqOpt : Option Str → Option Str → Bool
  | none, none => true
  | some a, some b => a = b
  | _, _ => false

/-- Model of JS `v || ''` applied to a possibly-`undefined` string:
`undefined` and `''` are falsy. -/
def jsOrEmpty : Option Str → Str
  | none => []
  | some s => s

/-! ### CSV codec (`parseCSV`, `parseCSVLine`, `exportToCSV`) -/

/-- The character loop of `parseCSVLine`: a double quote toggles the
`inQuotes` state, a comma outside quotes pushes the trimmed current
field, any other character is appended to the current field; at end of
input the trimmed current field is pushed. -/
def parseCSVLineGo : Str → Str → Bool → List Str
  | [], current, _ => [jsTrim current]
  | c :: rest, current, inQuotes =>
    if c = '"' then parseCSVLineGo rest current (!inQuotes)
    else if c = ',' && !inQuotes then jsTrim current :: parseCSVLineGo rest [] false
    else parseCSVLineGo rest (current ++ [c]) inQuotes

/-- The `parseCSVLine` from the source: quote-aware comma split with
per-field trimming. -/
def parseCSVLine (line : Str) : List Str := parseCSVLineGo line [] false

/-- Row construction in `parseCSV`: `headers.forEach((h, i) => row[h] =
values[i] || '')`.  The object is modelled as the association list
pairing headers with values (the loop only runs when the lengths are
equal, so every `values[i]` is defined). -/
def buildRow (headers values : List Str) : Record :=
  (headers.zip values).map (fun p => (p.1, if p.2 = [] then [] else p.2))

/-- The data-row loop of `parseCSV` (`for i = 1 .. lines.length`): a row
is kept exactly when its quote-aware field count equals the header
count. -/
def rowsLoop (headers : List Str) : List Str → List Record
  | [] => []
  | l :: ls =>
    let values := parseCSVLine l
    if values.length = headers.length then
      buildRow headers values :: rowsLoop headers ls
    else rowsLoop headers ls

/-- The `csv.split('\n').filter(line => line.trim())`: the non-blank lines. -/
def csvLines (csv : Str) : List Str :=
  (splitCh '\n' csv).filter (fun l => jsTrim l ≠ [])

/-- Header extraction in `parseCSV`: split the first line on commas
(not quote-aware), trim each piece and strip every double quote. -/
def csvHeaders (csv : Str) : List Str :=
  (splitCh ',' ((csvLines csv).headD [])).map (fun h => removeQuotes (jsTrim h))

/-- The `parseCSV` from the source. -/
def parseCSV (csv : Str) : List Record :=
  let lines := csvLines csv
  if lines.length < 2 then []
  else rowsLoop (csvHeaders csv) lines.tail

/-- Field serialization in `exportToCSV`:
`` `"${(lead[header] || '').toString().replace(/"/g, '""')}"` `` —
every double quote doubled, the whole wrapped in quotes. -/
def dupQuotes (v : Str) : Str :=
  v.foldr (fun c acc => if c = '"' then '"' :: '"' :: acc else c :: acc) []

/-- A serialized CSV field. -/
def csvField (v : Str) : Str := '"' :: (dupQuotes v ++ ['"'])

/-- One serialized data line of `exportToCSV`. -/
def csvLine (headers : List Str) (r : Record) : Str :=
  List.intercalate [','] (headers.map (fun h => csvField (jsOrEmpty (getField r h))))

/-- The CSV text built by `exportToCSV`: header names of the first
record joined by commas, then one quoted line per record, joined by
newlines.  On an empty collection the source returns early without
building any CSV; the model returns the empty string there. -/
def exportToCSV (leads : List Record) : Str :=
  match leads with
  | [] => []
  | first :: _ =>
    let headers := first.map Prod.fst
    List.intercalate ['\n']
      (List.intercalate [','] headers :: leads.map (csvLine headers))


/-! ### Record store (`loadStoredLeads`, `importLeads`, `deleteLead`) -/

/-- The `loadStoredLeads` from the source.  `stored` is
`localStorage.getItem('leadsData')` (`none` = `null`, absent key);
`jsonParse` is the external `JSON.parse`, abstracted by its
success/failure behaviour (`none` = the parse threw, caught by the
source's `try`/`catch` which resets the collection to `[]`).  The
constructor initialises `this.leads = []`, so an absent or falsy blob
leaves the collection empty. -/
def loadStoredLeads (jsonParse : Str → Option (List Record)) (stored : Option Str) :
    List Record :=
  match stored with
  | none => []
  | some s => if s = [] then [] else (jsonParse s).getD []

/-- The duplicate test of `importLeads`:
`this.leads.some(existing => existing.ID === lead.ID)`. -/
def hasDupID (leads : List Record) (lead : Record) : Bool :=
  leads.any (fun e => strictEqOpt (getField e (chars ("ID"))) (getField lead (chars ("ID"))))

/-- The `newLeads.forEach` loop of `importLeads`: `this.leads` grows as
the loop runs, so later incoming records are also checked against
records appended earlier in the same import. -/
def importLeadsGo (skipDuplicates : Bool) :
    List Record → List Record → Nat → Nat → List Record × Nat × Nat
  | leads, [], importedCount, skippedCount => (leads, importedCount, skippedCount)
  | leads, l :: ls, importedCount, skippedCount =>
    if skipDuplicates && hasDupID leads l then
      importLeadsGo skipDuplicates leads ls importedCount (skippedCount + 1)
    else
      importLeadsGo skipDuplicates (leads ++ [l]) ls (importedCount + 1) skippedCount

/-- The `importLeads` from the source, restricted to its data effect:
returns the merged collection and the two counters. -/
def importLeads (leads newLeads : List Record) (skipDuplicates : Bool) :
    List Record × Nat × Nat :=
  importLeadsGo skipDuplicates leads newLeads 0 0

/-- Merge as the spec describes it, sequentially: "for each incoming
record, if `skipDuplicates` is true and an existing record with the same
`ID` exists, increment `skippedCount` and drop it; otherwise append it
and increment `importedCount`" — the collection the next record sees
includes the appends made so far. -/
def specMerge : List Record → List Record → List Record × Nat × Nat
  | leads, [] => (leads, 0, 0)
  | leads, l :: ls =>
    if hasDupID leads l then
      let r := specMerge leads ls
      (r.1, r.2.1, r.2.2 + 1)
    else
      let r := specMerge (leads ++ [l]) ls
      (r.1, r.2.1 + 1, r.2.2)

/-- The `deleteLead` from the source (the mutation guarded by the confirm
dialog): `this.leads = this.leads.filter(lead => lead.ID !== id)`.
`id` arrives as a string (it is interpolated into the row's markup). -/
def deleteLead (leads : List Record) (id : Str) : List Record :=
  leads.filter (fun lead => !(strictEqOpt (getField lead (chars ("ID"))) (some id)))

/-! ### Query engine: filtering (`filterLeads`) -/

/-- The filter criteria read from the DOM controls at the top of
`filterLeads`; each is `''` when the control is empty. -/
structure Criteria where
  search : Str
  stage : Str
  source : Str
  responsible : Str
  date : Str
deriving Repr, DecidableEq

/-- Digit test for the date model. -/
def allDigits (s : Str) : Bool := s ≠ [] && s.all (fun c => c.isDigit)

/-- Decimal value of a digit string. -/
def digitsToNat (s : Str) : Nat :=
  s.foldl (fun acc c => acc * 10 + (c.toNat - 48)) 0

/-- Modelled approximation of `new Date(s)` for the `y-m-d` strings this
module builds (a reversed `DD/MM/YYYY` field or the value of an
`<input type=date>`): three dash-separated decimal components with the
month in 1..12 and the day in 1..31 give a valid date, encoded as a
day ordinal that is order-isomorphic to the timestamp; anything else is
an Invalid Date (`none`, the NaN time value). -/
def jsDateParse (s : Str) : Option Nat :=
  match splitCh '-' s with
  | [y, m, d] =>
    if allDigits y && allDigits m && allDigits d then
      let mv := digitsToNat m
      let dv := digitsToNat d
      if 1 ≤ mv && mv ≤ 12 && 1 ≤ dv && dv ≤ 31 then
        some (digitsToNat y * 372 + (mv - 1) * 31 + (dv - 1))
      else none
    else none
  | _ => none

/-- The `new Date(v.split('/').reverse().join('-'))`: the date a
`DD/MM/YYYY` field parses to. -/
def dateOrd (v : Str) : Option Nat :=
  jsDateParse (List.intercalate ['-'] ((splitCh '/' v).reverse))

/-- The per-record predicate of `filterLeads`, in `Option`: `none` is
the uncaught `TypeError` thrown by `lead.Created.split(...)` when a date
filter is active and the record has no `Created` field.  The
`toDateString()` comparison is day-level equality of the two parsed
dates; two Invalid Dates stringify equally (`'Invalid Date'`). -/
def leadMatches (c : Criteria) (lead : Record) : Option Bool :=
  let searchTerm := toLowerStr c.search
  let matchesSearch := searchTerm = [] ||
    (match getField lead (chars ("Lead Name")) with
     | none => false
     | some v => seqContains (toLowerStr v) searchTerm) ||
    (match getField lead (chars ("First Name")) with
     | none => false
     | some v => seqContains (toLowerStr v) searchTerm) ||
    (match getField lead (chars ("ID")) with
     | none => false
     | some v => seqContains v searchTerm)
  let matchesStage := c.stage = [] ||
    strictEqOpt (getField lead (chars ("Stage"))) (some c.stage)
  let matchesSource := c.source = [] ||
    strictEqOpt (getField lead (chars ("Source"))) (some c.source)
  let matchesResponsible := c.responsible = [] ||
    strictEqOpt (getField lead (chars ("Responsible"))) (some c.responsible)
  if c.date = [] then
    some (matchesSearch && matchesStage && matchesSource && matchesResponsible)
  else
    match getField lead (chars ("Created")) with
    | none => none
    | some created =>
      let matchesDate := dateOrd created == jsDateParse c.date
      some (matchesSearch && matchesStage && matchesSource && matchesResponsible && matchesDate)

/-- The `this.leads.filter(...)` with exception propagation: the first
record that throws aborts the whole filter. -/
def filterLeadsList (c : Criteria) : List Record → Option (List Record)
  | [] => some []
  | r :: rs =>
    match leadMatches c r with
    | none => none
    | some b =>
      match filterLeadsList c rs with
      | none => none
      | some rest => some (if b then r :: rest else rest)

/-! ### Manager state, sorting (`sortTable`), paging -/

/-- The mutable fields of the `LeadsManager` instance that the data
pipeline reads and writes. -/
structure MState where
  leads : List Record
  filteredLeads : List Record
  currentPage : Nat
  pageSize : Nat
  sortColumn : Str
  sortDirection : Str
deriving Repr, DecidableEq

/-- The `filterLeads` as a state transition: recompute `filteredLeads` from
`leads` and reset `currentPage` to 1; `none` when the predicate threw. -/
def filterLeadsSt (c : Criteria) (s : MState) : Option MState :=
  (filterLeadsList c s.leads).map
    (fun v => { s with filteredLeads := v, currentPage := 1 })

/-- The `columnMap` object literal of `sortTable`. -/
def columnMap (column : Str) : Option Str :=
  if column = chars ("sort-id") then some (chars ("ID"))
  else if column = chars ("sort-name") then some (chars ("Lead Name"))
  else if column = chars ("sort-stage") then some (chars ("Stage"))
  else if column = chars ("sort-source") then some (chars ("Source"))
  else if column = chars ("sort-responsible") then some (chars ("Responsible"))
  else if column = chars ("sort-created") then some (chars ("Created"))
  else if column = chars ("sort-followup") then some (chars ("Follow Up"))
  else none

/-- Model of JS `parseInt(s) || 0`: skip leading whitespace, an optional
sign, then an optional `0x`/`0X` hex run or a decimal digit run; no
digits (NaN) — and a parsed 0, which is falsy — give 0. -/
def jsParseIntOr0 (s : Str) : Int :=
  let t := s.dropWhile isWs
  let (sign, u) : Int × Str :=
    match t with
    | '-' :: rest => (-1, rest)
    | '+' :: rest => (1, rest)
    | _ => (1, t)
  match u with
  | '0' :: x :: rest =>
    if x = 'x' || x = 'X' then
      let ds := rest.takeWhile (fun c =>
        c.isDigit || ('a' ≤ c && c ≤ 'f') || ('A' ≤ c && c ≤ 'F'))
      sign * (ds.foldl (fun acc c =>
        acc * 16 + Int.ofNat (if c.isDigit then c.toNat - 48
          else if c ≤ 'Z' then c.toNat - 55 else c.toNat - 87)) 0)
    else
      let ds := ('0' :: x :: rest).takeWhile (fun c => c.isDigit)
      sign * (ds.foldl (fun acc c => acc * 10 + Int.ofNat (c.toNat - 48)) 0)
  | _ =>
    let ds := u.takeWhile (fun c => c.isDigit)
    if ds = [] then 0
    else sign * (ds.foldl (fun acc c => acc * 10 + Int.ofNat (c.toNat - 48)) 0)

/-- Three-way comparison of integers, as the comparator's
`<` / `>` tests produce it. -/
def cmpInt (x y : Int) : Int := if x < y then -1 else if y < x then 1 else 0

/-- Three-way comparison of JS strings: `<` and `>` on strings are
lexicographic by code unit. -/
def cmpStr : Str → Str → Int
  | [], [] => 0
  | [], _ :: _ => -1
  | _ :: _, [] => 1
  | a :: as, b :: bs => if a < b then -1 else if b < a then 1 else cmpStr as bs

/-- The comparator body of `sortTable` for the resolved column, before
the direction sign is applied: `ID` compares `parseInt(v) || 0`;
`Created` / `Follow Up` compare parsed dates, where an Invalid Date
(NaN) makes both `<` and `>` false, hence compares equal to
everything; other columns compare as strings. -/
def leadCmp (actual : Str) (a b : Record) : Int :=
  let aRaw := jsOrEmpty (getField a actual)
  let bRaw := jsOrEmpty (getField b actual)
  if actual = chars ("ID") then cmpInt (jsParseIntOr0 aRaw) (jsParseIntOr0 bRaw)
  else if actual = chars ("Created") ∨ actual = chars ("Follow Up") then
    match dateOrd aRaw, dateOrd bRaw with
    | some x, some y => cmpInt (Int.ofNat x) (Int.ofNat y)
    | _, _ => 0
  else cmpStr aRaw bRaw

/-- The full comparator including the direction: for `'asc'` the raw
comparison, for `'desc'` its negation (the source returns `1` where the
ascending comparator returns `-1` and vice versa). -/
def dirCmp (actual : Str) (dir : Str) (a b : Record) : Int :=
  if dir = chars ("asc") then leadCmp actual a b else -(leadCmp actual a b)

/-- The non-strict order induced by the comparator: `a` may be placed
before `b` exactly when the comparator does not order `b` strictly
first. -/
def leadLe (actual : Str) (dir : Str) (a b : Record) : Bool :=
  dirCmp actual dir a b ≤ 0

/-- Stable insertion used to model `Array.prototype.sort`. -/
def insertS (le : α → α → Bool) (x : α) : List α → List α
  | [] => [x]
  | y :: ys => if le x y then x :: y :: ys else y :: insertS le x ys

/-- Stable sort modelling `Array.prototype.sort(comparator)`.
ECMAScript guarantees a stable sort; for a consistent comparator every
stable sort produces this list.  (For an inconsistent comparator — which
the date columns can induce, see `leadCmp` — the ECMAScript result is
implementation-defined; the model fixes the insertion-sort outcome,
which agrees with what a comparison-based stable sort produces on the
concrete counterexamples below.) -/
def sortS (le : α → α → Bool) : List α → List α
  | [] => []
  | x :: xs => insertS le x (sortS le xs)

/-- The `'asc'` / `'desc'` toggle at the top of `sortTable`. -/
def flipDir (dir : Str) : Str :=
  if dir = chars ("asc") then chars ("desc") else chars ("asc")

/-- The direction `sortTable` settles on before sorting: flip it when
the clicked column is the active one, else reset to ascending. -/
def newDir (s : MState) (column : Str) : Str :=
  if s.sortColumn = column then flipDir s.sortDirection else chars ("asc")

/-- The `sortTable` from the source: toggle/reset the stored column and
direction, then — only if the key resolves — sort `filteredLeads` in
place.  `currentPage` is not touched. -/
def sortTable (s : MState) (column : Str) : MState :=
  let dir := newDir s column
  let s' := { s with sortColumn := column, sortDirection := dir }
  match columnMap column with
  | none => s'
  | some actual =>
    { s' with filteredLeads := sortS (leadLe actual dir) s'.filteredLeads }

/-- The page slice of `renderTable`:
`filteredLeads.slice((p-1)*size, (p-1)*size + size)`. -/
def pageItems (view : List Record) (pageNumber pageSize : Nat) : List Record :=
  (view.drop ((pageNumber - 1) * pageSize)).take pageSize

/-- The `updatePagination`: the 1-based start of the reported range. -/
def rangeStart (pageNumber pageSize : Nat) : Nat :=
  (pageNumber - 1) * pageSize + 1

/-- The `updatePagination`: the 1-based end of the reported range,
clamped to the total. -/
def rangeEnd (pageNumber pageSize total : Nat) : Nat :=
  min (rangeStart pageNumber pageSize + pageSize - 1) total


/-! ### Shared concrete fixtures -/

/-- A sample record used by concrete witnesses. -/
def recA : Record :=
  [(chars ("ID"), chars ("1")), (chars ("Lead Name"), chars ("Ann")),
   (chars ("Stage"), chars ("NEW")), (chars ("Created"), chars ("15/03/2024"))]

/-- A second sample record. -/
def recB : Record :=
  [(chars ("ID"), chars ("2")), (chars ("Lead Name"), chars ("Bob")),
   (chars ("Stage"), chars ("CUSTOMER")), (chars ("Created"), chars ("14/03/2023"))]

/-- A record with no `Created` field. -/
def recNoCreated : Record := [(chars ("ID"), chars ("9")), (chars ("Lead Name"), chars ("Nox"))]

/-- A sample manager state. -/
def sampleState : MState :=
  { leads := [recA, recB], filteredLeads := [recA, recB], currentPage := 1,
    pageSize := 10, sortColumn := chars ("sort-id"), sortDirection := chars ("desc") }

/-- A state sitting on page 2, as left by paging controls. -/
def pagedState : MState :=
  { leads := [recA, recB], filteredLeads := [recA, recB], currentPage := 2,
    pageSize := 1, sortColumn := [], sortDirection := chars ("asc") }

/-- A record whose `Created` field does not parse as a date. -/
def recU : Record :=
  [(chars ("ID"), chars ("3")), (chars ("Lead Name"), chars ("Uma")),
   (chars ("Stage"), chars ("NEW")), (chars ("Created"), chars ("soon"))]

/-- A view interleaving a late valid date, an unparsable date and an
earlier valid date. -/
def dateMixState : MState :=
  { leads := [recA, recU, recB], filteredLeads := [recA, recU, recB],
    currentPage := 1, pageSize := 10, sortColumn := [],
    sortDirection := chars ("asc") }

/-- The `Created` / `Follow Up` resolve through the date branch. -/
def dateColumn (actual : Str) : Prop :=
  actual = chars ("Created") ∨ actual = chars ("Follow Up")

instance (actual : Str) : Decidable (dateColumn actual) := by
  unfold dateColumn
  infer_instance

/-- A record is well-dated for a column when, if the column is a date
column, its value parses to a valid date.  (For non-date columns this
imposes nothing.) -/
def colOk (actual : Str) (r : Record) : Prop :=
  dateColumn actual → (dateOrd (jsOrEmpty (getField r actual))).isSome = true


/-! ### C2 — date filter on a record without `Created` -/

/-- C2: the claim says a record missing `Created` under an active date
filter is handled without error and treated as non-matching.  The code
evaluates `lead.Created.split('/')` unguarded, so `lead.Created` being
`undefined` throws a `TypeError` (modelled as `none`): the predicate
crashes, and the whole `filterLeads` pass crashes with it, instead of
excluding the record. -/
theorem filter_missing_created_crash :
    leadMatches ⟨[], [], [], [], chars ("2024-03-15")⟩ recNoCreated = none
    ∧ filterLeadsList ⟨[], [], [], [], chars ("2024-03-15")⟩ [recNoCreated] = none := by
  exact ⟨rfl, rfl⟩

/-! ### C3 — page reset on filter and on sort -/

/-- C3 counterexample: the claim says every sort operation resets the
current page to 1.  `sortTable` never touches `currentPage`: sorting
from a state on page 2 leaves the page at 2. -/
theorem sort_keeps_page_counterexample :
    ¬ ((sortTable pagedState (chars ("sort-id"))).currentPage = 1) := by
  decide

/-- C3 amended: every successful filter operation resets `currentPage`
to 1; a sort operation leaves `currentPage` unchanged. -/
theorem page_reset_amended :
    (∀ (c : Criteria) (s s' : MState), filterLeadsSt c s = some s' → s'.currentPage = 1)
    ∧ (∀ (s : MState) (col : Str), (sortTable s col).currentPage = s.currentPage) := by
  constructor
  · intro c s s' h
    unfold filterLeadsSt at h
    rcases Option.map_eq_some'.mp h with ⟨v, _, hv⟩
    rw [← hv]
  · intro s col
    unfold sortTable
    cases columnMap col <;> rfl

/-- C3 witness: the amended theorem applied at a concrete filter (empty
criteria, empty collection, starting page 7) and a concrete sort. -/
theorem page_reset_amended_witness :
    ({ leads := [], filteredLeads := [], currentPage := 1, pageSize := 10,
       sortColumn := [], sortDirection := chars ("asc") } : MState).currentPage = 1
    ∧ (sortTable sampleState (chars ("sort-name"))).currentPage = sampleState.currentPage :=
  ⟨page_reset_amended.1 ⟨[], [], [], [], []⟩
    { leads := [], filteredLeads := [], currentPage := 7, pageSize := 10,
      sortColumn := [], sortDirection := chars ("asc") } _ rfl,
   page_reset_amended.2 sampleState (chars ("sort-name"))⟩

/-! ### C9 — loading the persisted blob -/

/-- C9: when the stored blob is absent (`localStorage.getItem` returned
`null`) or fails to parse (caught `JSON.parse` exception), the loaded
collection is empty and no error escapes (the model is total). -/
theorem loadStoredLeads_spec (jsonParse : Str → Option (List Record)) :
    loadStoredLeads jsonParse none = []
    ∧ (∀ s : Str, jsonParse s = none → loadStoredLeads jsonParse (some s) = []) := by
  refine ⟨rfl, fun s h => ?_⟩
  unfold loadStoredLeads
  by_cases hs : s = []
  · simp [hs]
  · simp [hs, h]

/-- C9 witness: a parser that always fails, applied to an absent blob
and to a concrete malformed blob. -/
theorem loadStoredLeads_spec_witness :
    loadStoredLeads (fun _ => none) none = []
    ∧ loadStoredLeads (fun _ => none) (some (chars ("not json"))) = [] :=
  ⟨(loadStoredLeads_spec (fun _ => none)).1,
   (loadStoredLeads_spec (fun _ => none)).2 (chars ("not json")) rfl⟩

/-! ### C6 — delete by identifier -/

/-- C6: `deleteLead` removes exactly the records whose stored `ID`
field is strictly equal (same stored representation — `strictEqOpt`
never coerces, so e.g. `"01"` does not match `"1"`, and a missing `ID`
matches nothing) to the given id, and the surviving records keep their
relative order (the result is a sublist of the input). -/
theorem deleteLead_spec (leads : List Record) (id : Str) :
    (deleteLead leads id).Sublist leads
    ∧ ∀ r : Record, (deleteLead leads id).count r =
        if strictEqOpt (getField r (chars ("ID"))) (some id) then 0 else leads.count r := by
  refine ⟨List.filter_sublist leads, fun r => ?_⟩
  by_cases h : strictEqOpt (getField r (chars ("ID"))) (some id) = true
  · rw [if_pos h]
    refine List.count_eq_zero.mpr fun hmem => ?_
    have hkeep := (List.mem_filter.mp hmem).2
    simp [h] at hkeep
  · rw [if_neg h]
    exact List.count_filter (by simp [Bool.not_eq_true] at h; simp [deleteLead, h])

/-! ### C7 — paging -/

/-- C7: the page slice rendered by `renderTable` is exactly the
records at 1-based positions `rangeStart .. rangeEnd` of the view as
reported by `updatePagination`, and a page number beyond the available
pages yields an empty slice (no error: the model is total). -/
theorem pagination_spec (view : List Record) (p size : Nat)
    (hp : 1 ≤ p) (hs : 1 ≤ size) :
    pageItems view p size =
      (view.take (rangeEnd p size view.length)).drop (rangeStart p size - 1)
    ∧ ((view.length + size - 1) / size < p → pageItems view p size = []) := by
  constructor
  · unfold pageItems rangeEnd rangeStart
    have hq : (p - 1) * size + 1 - 1 = (p - 1) * size := by omega
    have hps : (p - 1) * size + 1 + size - 1 = (p - 1) * size + size := by omega
    rw [hq, hps, List.drop_take, List.take_eq_take, List.length_drop]
    have hmul : (p - 1) * size + size = p * size := by
      cases p with
      | zero => exact absurd hp (by omega)
      | succ n => simp [Nat.succ_mul]
    omega
  · intro h
    have h1 : view.length + size - 1 < p * size :=
      (Nat.div_lt_iff_lt_mul hs).mp h
    have hmul : (p - 1) * size + size = p * size := by
      cases p with
      | zero => exact absurd hp (by omega)
      | succ n => simp [Nat.succ_mul]
    have h2 : view.length ≤ (p - 1) * size := by omega
    unfold pageItems
    rw [List.drop_eq_nil_of_le h2, List.take_nil]

/-- C7 witness: the spec's own example — 25 records, page size 10,
page 3 — plus the concrete range values 21..25 and 5 items. -/
theorem pagination_spec_witness :
    (pageItems (List.replicate 25 ([] : Record)) 3 10 =
      ((List.replicate 25 ([] : Record)).take
        (rangeEnd 3 10 (List.replicate 25 ([] : Record)).length)).drop
        (rangeStart 3 10 - 1)
    ∧ (((List.replicate 25 ([] : Record)).length + 10 - 1) / 10 < 3 →
        pageItems (List.replicate 25 ([] : Record)) 3 10 = []))
    ∧ rangeStart 3 10 = 21 ∧ rangeEnd 3 10 25 = 25
    ∧ (pageItems (List.replicate 25 ([] : Record)) 3 10).length = 5 :=
  ⟨pagination_spec (List.replicate 25 ([] : Record)) 3 10 (by decide) (by decide),
   by decide, by decide, by decide⟩

/-! ### C8 — arity filtering in `parseCSV` -/

/-- The data-row loop is the filter-then-build composition. -/
theorem rowsLoop_eq_filterMap (hs : List Str) (ls : List Str) :
    rowsLoop hs ls =
      (ls.filter (fun l => (parseCSVLine l).length == hs.length)).map
        (fun l => buildRow hs (parseCSVLine l)) := by
  induction ls with
  | nil => rfl
  | cons l ls ih =>
    unfold rowsLoop
    by_cases h : (parseCSVLine l).length = hs.length
    · simp [List.filter_cons, h, ih]
    · simp [List.filter_cons, h, ih]

/-- C8: a data row (a non-blank line after the first) contributes a
record to the parse result exactly when its quote-aware field count
equals the header count, so the result is the filter of the data rows
by that arity test, and its length is the number of matching data rows;
mismatched rows are dropped with no error (the model is total). -/
theorem parseCSV_arity_spec (csv : Str) :
    parseCSV csv =
      ((csvLines csv).tail.filter
          (fun l => (parseCSVLine l).length == (csvHeaders csv).length)).map
        (fun l => buildRow (csvHeaders csv) (parseCSVLine l))
    ∧ (parseCSV csv).length =
        (csvLines csv).tail.countP
          (fun l => (parseCSVLine l).length == (csvHeaders csv).length) := by
  have hmain : parseCSV csv =
      ((csvLines csv).tail.filter
          (fun l => (parseCSVLine l).length == (csvHeaders csv).length)).map
        (fun l => buildRow (csvHeaders csv) (parseCSVLine l)) := by
    unfold parseCSV
    by_cases h : (csvLines csv).length < 2
    · rw [if_pos h]
      have ht : (csvLines csv).tail = [] := by
        cases hl : csvLines csv with
        | nil => rfl
        | cons a t =>
          rw [hl] at h
          cases t with
          | nil => rfl
          | cons b t2 => simp at h; omega
      rw [ht]
      rfl
    · rw [if_neg h]
      exact rowsLoop_eq_filterMap _ _
  refine ⟨hmain, ?_⟩
  rw [hmain, List.length_map, List.countP_eq_length_filter]

/-! ### C4 — merge on import -/

/-- The import loop with `skipDuplicates` off appends everything and
counts every record as imported. -/
theorem importLeadsGo_false (ls : List Record) :
    ∀ (leads : List Record) (i s : Nat),
      importLeadsGo false leads ls i s = (leads ++ ls, i + ls.length, s) := by
  induction ls with
  | nil => intro leads i s; simp [importLeadsGo]
  | cons l ls ih =>
    intro leads i s
    unfold importLeadsGo
    simp [ih, List.append_assoc]
    omega

/-- The import loop with `skipDuplicates` on computes `specMerge`,
with the counters offset by their starting values. -/
theorem importLeadsGo_true (ls : List Record) :
    ∀ (leads : List Record) (i s : Nat),
      importLeadsGo true leads ls i s =
        ((specMerge leads ls).1, i + (specMerge leads ls).2.1,
          s + (specMerge leads ls).2.2) := by
  induction ls with
  | nil => intro leads i s; simp [importLeadsGo, specMerge]
  | cons l ls ih =>
    intro leads i s
    unfold importLeadsGo specMerge
    by_cases h : hasDupID leads l = true
    · simp [h, ih]
      omega
    · simp [h, ih]
      omega

/-- The two counters of `specMerge` always account for every incoming
record. -/
theorem specMerge_counts (ls : List Record) :
    ∀ leads : List Record,
      (specMerge leads ls).2.1 + (specMerge leads ls).2.2 = ls.length := by
  induction ls with
  | nil => intro leads; rfl
  | cons l ls ih =>
    intro leads
    unfold specMerge
    by_cases h : hasDupID leads l = true
    · simp [h]
      have := ih leads
      omega
    · simp [h]
      have := ih (leads ++ [l])
      omega

/-- Case equation: a duplicate incoming record is skipped. -/
theorem specMerge_cons_dup {leads : List Record} {l : Record} {ls : List Record}
    (h : hasDupID leads l = true) :
    specMerge leads (l :: ls) =
      ((specMerge leads ls).1, (specMerge leads ls).2.1,
        (specMerge leads ls).2.2 + 1) := by
  conv_lhs => rw [specMerge]
  simp [h]

/-- Case equation: a fresh incoming record is appended. -/
theorem specMerge_cons_new {leads : List Record} {l : Record} {ls : List Record}
    (h : hasDupID leads l = false) :
    specMerge leads (l :: ls) =
      ((specMerge (leads ++ [l]) ls).1, (specMerge (leads ++ [l]) ls).2.1 + 1,
        (specMerge (leads ++ [l]) ls).2.2) := by
  conv_lhs => rw [specMerge]
  simp [h]

/-- Growing the collection can only turn a fresh record into a
duplicate, never the other way: a record that does not duplicate the
grown collection does not duplicate the original one. -/
theorem hasDupID_append_false {leads extra : List Record} {r : Record}
    (h : hasDupID (leads ++ extra) r = false) : hasDupID leads r = false := by
  unfold hasDupID at h ⊢
  rw [List.any_append] at h
  exact (Bool.or_eq_false_iff.mp h).1

/-- The `specMerge` appends a subsequence of the incoming records, none of
which duplicates an `ID` already present before the import. -/
theorem specMerge_appended (ls : List Record) :
    ∀ leads : List Record,
      ∃ sub : List Record, sub.Sublist ls ∧
        (specMerge leads ls).1 = leads ++ sub ∧
        (specMerge leads ls).2.1 = sub.length ∧
        sub.all (fun r => !hasDupID leads r) = true := by
  induction ls with
  | nil =>
    intro leads
    exact ⟨[], List.Sublist.refl _, by simp [specMerge], rfl, rfl⟩
  | cons l ls ih =>
    intro leads
    by_cases h : hasDupID leads l = true
    · obtain ⟨sub, hsl, h1, h2, h3⟩ := ih leads
      rw [specMerge_cons_dup h]
      exact ⟨sub, hsl.trans (List.sublist_cons_self l ls), h1, h2, h3⟩
    · rw [Bool.not_eq_true] at h
      obtain ⟨sub, hsl, h1, h2, h3⟩ := ih (leads ++ [l])
      rw [specMerge_cons_new h]
      refine ⟨l :: sub, List.Sublist.cons₂ l hsl, ?_, by simp [h2], ?_⟩
      · simpa [List.append_assoc] using h1
      · simp only [List.all_cons, Bool.and_eq_true]
        refine ⟨by simp [h], ?_⟩
        rw [List.all_eq_true] at h3 ⊢
        intro r hr
        have hr' := h3 r hr
        rw [Bool.not_eq_true'] at hr' ⊢
        exact hasDupID_append_false hr'

/-- C4: with `skipDuplicates` off, import appends every incoming record
in order and counts them all as imported; with it on, import behaves as
the spec's sequential merge: the appended records are a subsequence of
the incoming ones (order preserved), `importedCount` counts them,
`importedCount + skippedCount` accounts for every incoming record, and
no appended record duplicates an `ID` that was already in the
collection before the import. -/
theorem importLeads_spec (leads newLeads : List Record) :
    importLeads leads newLeads false = (leads ++ newLeads, newLeads.length, 0)
    ∧ importLeads leads newLeads true = specMerge leads newLeads
    ∧ (specMerge leads newLeads).2.1 + (specMerge leads newLeads).2.2 = newLeads.length
    ∧ ∃ sub : List Record, sub.Sublist newLeads ∧
        (specMerge leads newLeads).1 = leads ++ sub ∧
        (specMerge leads newLeads).2.1 = sub.length ∧
        sub.all (fun r => !hasDupID leads r) = true := by
  refine ⟨?_, ?_, specMerge_counts newLeads leads, specMerge_appended newLeads leads⟩
  · simpa using importLeadsGo_false newLeads leads 0 0
  · simpa using importLeadsGo_true newLeads leads 0 0

/-! ### Generic facts about the stable-sort model -/

/-- Inserting permutes: the result is the element plus the old list. -/
theorem insertS_perm (le : α → α → Bool) (x : α) (l : List α) :
    (insertS le x l).Perm (x :: l) := by
  induction l with
  | nil => exact List.Perm.refl _
  | cons y ys ih =>
    unfold insertS
    by_cases h : le x y = true
    · simp only [h, if_true]
      exact List.Perm.refl _
    · simp only [h, if_false]
      exact (ih.cons y).trans (List.Perm.swap x y ys)

/-- The sort is a permutation of its input. -/
theorem sortS_perm (le : α → α → Bool) (l : List α) : (sortS le l).Perm l := by
  induction l with
  | nil => exact List.Perm.refl _
  | cons x xs ih => exact (insertS_perm le x (sortS le xs)).trans (ih.cons x)

/-- Membership in an insertion. -/
theorem mem_insertS {le : α → α → Bool} {x a : α} {l : List α} :
    a ∈ insertS le x l ↔ a = x ∨ a ∈ l := by
  rw [(insertS_perm le x l).mem_iff, List.mem_cons]

/-- Membership in the sort. -/
theorem mem_sortS {le : α → α → Bool} {a : α} {l : List α} :
    a ∈ sortS le l ↔ a ∈ l := (sortS_perm le l).mem_iff

/-- The head of an insertion is the new element or the old head. -/
theorem insertS_headOpt (le : α → α → Bool) (x : α) (l : List α) :
    (insertS le x l).head? = some x ∨ (insertS le x l).head? = l.head? := by
  cases l with
  | nil => exact Or.inl rfl
  | cons y ys =>
    unfold insertS
    by_cases h : le x y = true
    · simp [h]
    · simp [h]

/-- Inserting into a comparator-chain keeps it a chain (totality of the
order is enough: adjacent pairs are compared directly). -/
theorem insertS_chain (le : α → α → Bool)
    (tot : ∀ a b, le a b = false → le b a = true) (x : α) (l : List α)
    (h : List.Chain' (fun a b => le a b = true) l) :
    List.Chain' (fun a b => le a b = true) (insertS le x l) := by
  induction l with
  | nil => simp [insertS]
  | cons y ys ih =>
    unfold insertS
    by_cases hxy : le x y = true
    · simp only [hxy, if_true]
      exact List.chain'_cons.mpr ⟨hxy, h⟩
    · simp only [hxy, if_false]
      rw [Bool.not_eq_true] at hxy
      refine List.chain'_cons'.mpr ⟨?_, ih h.tail⟩
      intro z hz
      rcases insertS_headOpt le x ys with hh | hh
      · rw [hh] at hz
        cases hz
        exact tot x y hxy
      · rw [hh] at hz
        exact (List.chain'_cons'.mp h).1 z hz

/-- The sorted list is a comparator-chain. -/
theorem sortS_chain (le : α → α → Bool)
    (tot : ∀ a b, le a b = false → le b a = true) (l : List α) :
    List.Chain' (fun a b => le a b = true) (sortS le l) := by
  induction l with
  | nil => simp [sortS]
  | cons x xs ih => exact insertS_chain le tot x (sortS le xs) ih

/-- Inserting into a pairwise-sorted list keeps it pairwise-sorted,
given totality and transitivity on the elements involved. -/
theorem insertS_pairwise {P : α → Prop} (le : α → α → Bool)
    (tot : ∀ a b, le a b = false → le b a = true)
    (tr : ∀ a b c, P a → P b → P c → le a b = true → le b c = true → le a c = true)
    (x : α) (l : List α) (hx : P x) (hl : ∀ a ∈ l, P a)
    (h : List.Pairwise (fun a b => le a b = true) l) :
    List.Pairwise (fun a b => le a b = true) (insertS le x l) := by
  induction l with
  | nil => simp [insertS]
  | cons y ys ih =>
    unfold insertS
    by_cases hxy : le x y = true
    · simp only [hxy, if_true]
      refine List.pairwise_cons.mpr ⟨?_, h⟩
      intro z hz
      rcases List.mem_cons.mp hz with hz | hz
      · exact hz ▸ hxy
      · exact tr x y z hx (hl y (List.mem_cons_self y ys)) (hl z (List.mem_cons_of_mem y hz))
          hxy ((List.pairwise_cons.mp h).1 z hz)
    · simp only [hxy, if_false]
      rw [Bool.not_eq_true] at hxy
      refine List.pairwise_cons.mpr
        ⟨?_, ih (fun a ha => hl a (List.mem_cons_of_mem y ha)) h.of_cons⟩
      intro z hz
      rcases mem_insertS.mp hz with hz | hz
      · exact hz ▸ tot x y hxy
      · exact (List.pairwise_cons.mp h).1 z hz

/-- The sorted list is pairwise-sorted, given totality and
transitivity on the list's elements. -/
theorem sortS_pairwise {P : α → Prop} (le : α → α → Bool)
    (tot : ∀ a b, le a b = false → le b a = true)
    (tr : ∀ a b c, P a → P b → P c → le a b = true → le b c = true → le a c = true)
    (l : List α) (hl : ∀ a ∈ l, P a) :
    List.Pairwise (fun a b => le a b = true) (sortS le l) := by
  induction l with
  | nil => simp [sortS]
  | cons x xs ih =>
    exact insertS_pairwise le tot tr x (sortS le xs)
      (hl x (List.mem_cons_self x xs))
      (fun a ha => hl a (List.mem_cons_of_mem x (mem_sortS.mp ha)))
      (ih (fun a ha => hl a (List.mem_cons_of_mem x ha)))

/-- An insertion splits the target around the inserted element, and
the element strictly precedes everything it was inserted before. -/
theorem insertS_decomp (le : α → α → Bool) (x : α) (l : List α) :
    ∃ l1 l2, l = l1 ++ l2 ∧ insertS le x l = l1 ++ x :: l2 ∧
      ∀ y ∈ l1, le x y = false := by
  induction l with
  | nil => exact ⟨[], [], rfl, rfl, by simp⟩
  | cons y ys ih =>
    unfold insertS
    by_cases h : le x y = true
    · exact ⟨[], y :: ys, rfl, by simp [h], by simp⟩
    · obtain ⟨l1, l2, h1, h2, h3⟩ := ih
      rw [Bool.not_eq_true] at h
      refine ⟨y :: l1, l2, by simp [h1], by simp [h, h2], ?_⟩
      intro z hz
      rcases List.mem_cons.mp hz with hz | hz
      · exact hz ▸ h
      · exact h3 z hz

/-- Stability of the sort model: the comparator-tied class of any
element appears in the sorted output exactly in its input order. -/
theorem sortS_filter_tie {P : α → Prop} (le : α → α → Bool)
    (tr : ∀ a b c, P a → P b → P c → le a b = true → le b c = true → le a c = true)
    (x : α) (hx : P x) (l : List α) (hl : ∀ a ∈ l, P a) :
    (sortS le l).filter (fun y => le x y && le y x) =
      l.filter (fun y => le x y && le y x) := by
  induction l with
  | nil => rfl
  | cons z zs ih =>
    have hzs : ∀ a ∈ zs, P a := fun a ha => hl a (List.mem_cons_of_mem z ha)
    have ihz := ih hzs
    obtain ⟨l1, l2, hsplit, hins, hless⟩ := insertS_decomp le z (sortS le zs)
    have hfl2 : l1.filter (fun y => le x y && le y x) ++
        l2.filter (fun y => le x y && le y x) = zs.filter (fun y => le x y && le y x) := by
      rw [← List.filter_append, ← hsplit, ihz]
    show (insertS le z (sortS le zs)).filter _ = _
    rw [hins, List.filter_append, List.filter_cons, List.filter_cons]
    by_cases hz : (le x z && le z x) = true
    · obtain ⟨hxz, hzx⟩ : le x z = true ∧ le z x = true := by simpa using hz
      have hl1 : l1.filter (fun y => le x y && le y x) = [] := by
        rw [List.filter_eq_nil_iff]
        intro y hy htie
        have hyP : P y := hzs y (mem_sortS.mp (hsplit ▸ List.mem_append.mpr (Or.inl hy)))
        have hzy : le z y = false := hless y hy
        obtain ⟨hxy, _⟩ : le x y = true ∧ le y x = true := by simpa using htie
        have : le z y = true :=
          tr z x y (hl z (List.mem_cons_self z zs)) hx hyP hzx hxy
        rw [hzy] at this
        cases this
      rw [hl1, List.nil_append] at hfl2
      rw [if_pos hz, if_pos hz, hl1, List.nil_append, hfl2]
    · rw [if_neg hz, if_neg hz, hfl2]

/-! ### Order facts about the `sortTable` comparator -/

/-- The `cmpInt x y ≤ 0` says exactly `x ≤ y`. -/
theorem cmpInt_nonpos {x y : Int} : cmpInt x y ≤ 0 ↔ x ≤ y := by
  unfold cmpInt
  split_ifs <;> omega

/-- The integer comparison is antisymmetric. -/
theorem cmpInt_neg_antisym (x y : Int) : cmpInt x y = -(cmpInt y x) := by
  unfold cmpInt
  split_ifs <;> omega

/-- The string comparison is antisymmetric. -/
theorem cmpStr_antisym : ∀ a b : Str, cmpStr a b = -(cmpStr b a)
  | [], [] => rfl
  | [], _ :: _ => rfl
  | _ :: _, [] => rfl
  | a :: as, b :: bs => by
    unfold cmpStr
    by_cases h1 : a < b
    · have h2 : ¬ b < a := lt_asymm h1
      simp [h1, h2]
    · by_cases h2 : b < a
      · simp [h1, h2]
      · simp [h1, h2, cmpStr_antisym as bs]

/-- The string comparison is transitive on the nonpositive side. -/
theorem cmpStr_trans : ∀ a b c : Str,
    cmpStr a b ≤ 0 → cmpStr b c ≤ 0 → cmpStr a c ≤ 0
  | [], _, c, _, _ => by cases c <;> simp [cmpStr]
  | a :: as, [], c, h1, _ => by simp [cmpStr] at h1
  | a :: as, b :: bs, [], _, h2 => by simp [cmpStr] at h2
  | a :: as, b :: bs, c :: cs, h1, h2 => by
    unfold cmpStr at h1 h2 ⊢
    by_cases hab : a < b
    · by_cases hbc : b < c
      · simp [lt_trans hab hbc]
      · by_cases hcb : c < b
        · simp [hbc, hcb] at h2
        · have hbc' : b = c := le_antisymm (not_lt.mp hcb) (not_lt.mp hbc)
          simp [hbc' ▸ hab]
    · by_cases hba : b < a
      · simp [hab, hba] at h1
      · have hab' : a = b := le_antisymm (not_lt.mp hba) (not_lt.mp hab)
        subst hab'
        simp only [lt_irrefl, if_false] at h1
        by_cases hac : a < c
        · simp [hac]
        · by_cases hca : c < a
          · simp [hac, hca] at h2
          · simp only [hac, hca, if_false]
            simp only [hac, hca, if_false] at h2
            exact cmpStr_trans as bs cs h1 h2

/-- The raw column comparator is antisymmetric. -/
theorem leadCmp_antisym (actual : Str) (a b : Record) :
    leadCmp actual a b = -(leadCmp actual b a) := by
  unfold leadCmp
  by_cases h1 : actual = chars ("ID")
  · rw [if_pos h1, if_pos h1]
    exact cmpInt_neg_antisym _ _
  · rw [if_neg h1, if_neg h1]
    by_cases h2 : actual = chars ("Created") ∨ actual = chars ("Follow Up")
    · rw [if_pos h2, if_pos h2]
      cases dateOrd (jsOrEmpty (getField a actual)) <;>
          cases dateOrd (jsOrEmpty (getField b actual))
      · simp
      · simp
      · simp
      · exact cmpInt_neg_antisym _ _
    · rw [if_neg h2, if_neg h2]
      exact cmpStr_antisym _ _

/-- The directed comparator is antisymmetric too. -/
theorem dirCmp_antisym (actual dir : Str) (a b : Record) :
    dirCmp actual dir a b = -(dirCmp actual dir b a) := by
  unfold dirCmp
  by_cases hd : dir = chars ("asc")
  · rw [if_pos hd, if_pos hd]
    exact leadCmp_antisym actual a b
  · rw [if_neg hd, if_neg hd, leadCmp_antisym actual a b]

/-- The `leadLe` unfolds to a comparator bound. -/
theorem leadLe_iff {actual dir : Str} {a b : Record} :
    leadLe actual dir a b = true ↔ dirCmp actual dir a b ≤ 0 := by
  simp [leadLe]

/-- Totality of `leadLe`: the comparator cannot strictly order both
ways. -/
theorem leadLe_total (actual dir : Str) :
    ∀ a b, leadLe actual dir a b = false → leadLe actual dir b a = true := by
  intro a b h
  rw [Bool.eq_false_iff, Ne, leadLe_iff] at h
  rw [leadLe_iff, dirCmp_antisym]
  omega

/-- The raw comparator is transitive on well-dated records. -/
theorem leadCmp_trans (actual : Str) (a b c : Record)
    (ha : colOk actual a) (hb : colOk actual b) (hc : colOk actual c)
    (h1 : leadCmp actual a b ≤ 0) (h2 : leadCmp actual b c ≤ 0) :
    leadCmp actual a c ≤ 0 := by
  unfold leadCmp at h1 h2 ⊢
  by_cases hID : actual = chars ("ID")
  · rw [if_pos hID] at h1 h2 ⊢
    rw [cmpInt_nonpos] at h1 h2 ⊢
    exact le_trans h1 h2
  · rw [if_neg hID] at h1 h2 ⊢
    by_cases hDate : actual = chars ("Created") ∨ actual = chars ("Follow Up")
    · rw [if_pos hDate] at h1 h2 ⊢
      obtain ⟨x, hx⟩ := Option.isSome_iff_exists.mp (ha hDate)
      obtain ⟨y, hy⟩ := Option.isSome_iff_exists.mp (hb hDate)
      obtain ⟨z, hz⟩ := Option.isSome_iff_exists.mp (hc hDate)
      rw [hx, hy] at h1
      rw [hy, hz] at h2
      rw [hx, hz]
      rw [cmpInt_nonpos] at h1 h2 ⊢
      exact le_trans h1 h2
    · rw [if_neg hDate] at h1 h2 ⊢
      exact cmpStr_trans _ _ _ h1 h2

/-- The directed order is transitive on well-dated records. -/
theorem leadLe_trans (actual dir : Str) :
    ∀ a b c, colOk actual a → colOk actual b → colOk actual c →
      leadLe actual dir a b = true → leadLe actual dir b c = true →
      leadLe actual dir a c = true := by
  intro a b c ha hb hc h1 h2
  rw [leadLe_iff] at h1 h2 ⊢
  unfold dirCmp at h1 h2 ⊢
  by_cases hd : dir = chars ("asc")
  · rw [if_pos hd] at h1 h2 ⊢
    exact leadCmp_trans actual a b c ha hb hc h1 h2
  · rw [if_neg hd] at h1 h2 ⊢
    have h1' : leadCmp actual b a ≤ 0 := by rw [leadCmp_antisym]; omega
    have h2' : leadCmp actual c b ≤ 0 := by rw [leadCmp_antisym]; omega
    have := leadCmp_trans actual c b a hc hb ha h2' h1'
    rw [leadCmp_antisym] at this
    omega

/-! ### `sortTable` characterization -/

/-- The `sortTable` always stores the clicked column key. -/
theorem sortTable_sortColumn (s : MState) (col : Str) :
    (sortTable s col).sortColumn = col := by
  unfold sortTable
  cases columnMap col <;> rfl

/-- The `sortTable` always stores the toggled direction. -/
theorem sortTable_sortDirection (s : MState) (col : Str) :
    (sortTable s col).sortDirection = newDir s col := by
  unfold sortTable
  cases columnMap col <;> rfl

/-- An unresolved key leaves the view untouched. -/
theorem sortTable_filtered_none {s : MState} {col : Str}
    (h : columnMap col = none) :
    (sortTable s col).filteredLeads = s.filteredLeads := by
  unfold sortTable
  rw [h]

/-- A resolved key sorts the view with the column comparator. -/
theorem sortTable_filtered_some {s : MState} {col actual : Str}
    (h : columnMap col = some actual) :
    (sortTable s col).filteredLeads =
      sortS (leadLe actual (newDir s col)) s.filteredLeads := by
  unfold sortTable
  rw [h]

/-! ### C10 — unknown sort key still updates the sort state -/

/-- C10: a sort key that `columnMap` does not resolve leaves the view
unchanged but still overwrites `sortColumn` with the unknown key and
recomputes `sortDirection` by the usual toggle, so a subsequent sort on
the previously active column starts ascending instead of flipping its
old direction. -/
theorem sortTable_unknown_state (s : MState) (col : Str)
    (h : columnMap col = none) :
    (sortTable s col).sortColumn = col
    ∧ (sortTable s col).sortDirection = newDir s col
    ∧ (sortTable s col).filteredLeads = s.filteredLeads
    ∧ (s.sortColumn ≠ col →
        (sortTable (sortTable s col) s.sortColumn).sortDirection = chars ("asc")) := by
  refine ⟨sortTable_sortColumn s col, sortTable_sortDirection s col,
    sortTable_filtered_none h, ?_⟩
  intro hne
  rw [sortTable_sortDirection]
  unfold newDir
  rw [sortTable_sortColumn]
  rw [if_neg (fun hh => hne hh.symm)]

/-- C10 witness: the starting state sorts by `sort-id` descending; a
`bogus` key is clicked, then `sort-id` again — which starts ascending. -/
theorem sortTable_unknown_state_witness :
    (sortTable (sortTable sampleState (chars ("bogus")))
        sampleState.sortColumn).sortDirection = chars ("asc") :=
  (sortTable_unknown_state sampleState (chars ("bogus")) (by decide)).2.2.2 (by decide)

/-! ### C5 — sorting behaviour -/

/-- C5 counterexample: the claim says sorting produces a stable sort of
the view by the resolved column.  On a date column the source comparator
makes an unparsable date (`NaN` time value) compare equal to everything,
which is inconsistent; sorting `[15/03/2024, unparsable, 14/03/2023]`
ascending by `Created` leaves the list in place, so the result is not
ordered by the column: a pair violating the comparator order remains. -/
theorem sortTable_sorted_counterexample :
    (sortTable dateMixState (chars ("sort-created"))).sortDirection = chars ("asc")
    ∧ (sortTable dateMixState (chars ("sort-created"))).filteredLeads = [recA, recU, recB]
    ∧ ¬ List.Pairwise
        (fun a b => leadLe (chars ("Created")) (chars ("asc")) a b = true)
        (sortTable dateMixState (chars ("sort-created"))).filteredLeads := by
  refine ⟨by decide, by decide, ?_⟩
  intro hp
  have : leadLe (chars ("Created")) (chars ("asc")) recA recB = true := by
    have := (List.pairwise_cons.mp hp).1 recB
    simp only [sortTable_filtered_some (by decide : columnMap (chars ("sort-created")) =
      some (chars ("Created")))] at *
    exact this (by decide)
  revert this
  decide

/-- C5 (amended): clicking the active column flips the direction and a
new column resets it to ascending; an unresolved key leaves the view
unchanged; a resolved key replaces the view with a permutation in which
every adjacent pair is comparator-ordered, and — whenever the column's
comparator is consistent, i.e. for `ID` and the textual columns always,
and for the date columns when every value parses — the result is
globally sorted by the column and the sort is stable (each
comparator-tied class keeps its input order). -/
theorem sortTable_spec_amended (s : MState) (col : Str) :
    (s.sortColumn = col → (sortTable s col).sortDirection = flipDir s.sortDirection)
    ∧ (s.sortColumn ≠ col → (sortTable s col).sortDirection = chars ("asc"))
    ∧ (columnMap col = none → (sortTable s col).filteredLeads = s.filteredLeads)
    ∧ ∀ actual, columnMap col = some actual →
        ((sortTable s col).filteredLeads.Perm s.filteredLeads
          ∧ List.Chain' (fun a b => leadLe actual (newDir s col) a b = true)
              (sortTable s col).filteredLeads)
        ∧ ((∀ r ∈ s.filteredLeads, colOk actual r) →
            List.Pairwise (fun a b => leadLe actual (newDir s col) a b = true)
              (sortTable s col).filteredLeads
            ∧ ∀ x ∈ s.filteredLeads,
                (sortTable s col).filteredLeads.filter
                  (fun y => leadLe actual (newDir s col) x y &&
                    leadLe actual (newDir s col) y x)
                = s.filteredLeads.filter
                  (fun y => leadLe actual (newDir s col) x y &&
                    leadLe actual (newDir s col) y x)) := by
  refine ⟨?_, ?_, fun h => sortTable_filtered_none h, ?_⟩
  · intro h
    rw [sortTable_sortDirection]
    unfold newDir
    rw [if_pos h]
  · intro h
    rw [sortTable_sortDirection]
    unfold newDir
    rw [if_neg h]
  · intro actual h
    rw [sortTable_filtered_some h]
    refine ⟨⟨sortS_perm _ _, sortS_chain _ (leadLe_total actual (newDir s col)) _⟩, ?_⟩
    intro hok
    constructor
    · exact sortS_pairwise (P := colOk actual) _ (leadLe_total actual _)
        (leadLe_trans actual _) _ hok
    · intro x hxmem
      exact sortS_filter_tie (P := colOk actual) _ (leadLe_trans actual _) x
        (hok x hxmem) _ hok

/-- C5 witness: sorting the sample state (active column `sort-id`,
descending) by `sort-id` flips to ascending, permutes the view, and —
`ID` not being a date column — is globally sorted by the comparator. -/
theorem sortTable_spec_amended_witness :
    (sortTable sampleState (chars ("sort-id"))).sortDirection = flipDir sampleState.sortDirection
    ∧ (sortTable sampleState (chars ("sort-id"))).filteredLeads.Perm sampleState.filteredLeads
    ∧ List.Pairwise
        (fun a b => leadLe (chars ("ID")) (newDir sampleState (chars ("sort-id"))) a b = true)
        (sortTable sampleState (chars ("sort-id"))).filteredLeads :=
  ⟨(sortTable_spec_amended sampleState (chars ("sort-id"))).1 (by decide),
   (((sortTable_spec_amended sampleState (chars ("sort-id"))).2.2.2 (chars ("ID"))
      (by decide)).1).1,
   (((sortTable_spec_amended sampleState (chars ("sort-id"))).2.2.2 (chars ("ID"))
      (by decide)).2 (fun r hr hd => absurd hd (by decide))).1⟩

/-! ### Split / join / trim lemmas for the CSV round trip -/

/-- The `intercalate` on a single piece. -/
theorem intercalate_single (s a : List α) : List.intercalate s [a] = a := by
  simp [List.intercalate]

/-- The `intercalate` peels its first piece. -/
theorem intercalate_two (s a b : List α) (l : List (List α)) :
    List.intercalate s (a :: b :: l) = a ++ s ++ List.intercalate s (b :: l) := by
  simp [List.intercalate, List.intersperse]

/-- Splitting a separator-free string gives one piece. -/
theorem splitCh_no_sep {sep : Char} : ∀ {xs : Str}, sep ∉ xs → splitCh sep xs = [xs]
  | [], _ => rfl
  | c :: xs, h => by
    have hc : ¬ c = sep := fun hh => h (hh ▸ List.mem_cons_self c xs)
    have ih := splitCh_no_sep (fun hm => h (List.mem_cons_of_mem c hm))
    show splitCh sep (c :: xs) = [c :: xs]
    unfold splitCh at ih ⊢
    simp only [List.foldr_cons]
    rw [if_neg hc]
    rw [ih]

/-- Splitting after a separator-free head piece. -/
theorem splitCh_append_sep {sep : Char} :
    ∀ {xs : Str} (ys : Str), sep ∉ xs →
      splitCh sep (xs ++ sep :: ys) = xs :: splitCh sep ys
  | [], ys, _ => by
    show splitCh sep (sep :: ys) = [] :: splitCh sep ys
    unfold splitCh
    simp
  | c :: xs, ys, h => by
    have hc : ¬ c = sep := fun hh => h (hh ▸ List.mem_cons_self c xs)
    have ih := @splitCh_append_sep sep xs ys
      (fun hm => h (List.mem_cons_of_mem c hm))
    show splitCh sep (c :: (xs ++ sep :: ys)) = (c :: xs) :: splitCh sep ys
    unfold splitCh at ih ⊢
    simp only [List.foldr_cons] at ih ⊢
    rw [if_neg hc, ih]

/-- Splitting the join of separator-free pieces recovers the pieces. -/
theorem splitCh_intercalate {sep : Char} :
    ∀ {ps : List Str}, ps ≠ [] → (∀ p ∈ ps, sep ∉ p) →
      splitCh sep (List.intercalate [sep] ps) = ps
  | [], h, _ => absurd rfl h
  | [p], _, hall => by
    rw [intercalate_single]
    exact splitCh_no_sep (hall p (List.mem_cons_self p []))
  | p :: q :: ps, _, hall => by
    rw [intercalate_two, List.append_assoc, List.singleton_append]
    rw [splitCh_append_sep _ (hall p (List.mem_cons_self p _))]
    rw [splitCh_intercalate (by simp) (fun r hr => hall r (List.mem_cons_of_mem p hr))]

/-- A string trims to empty exactly when it is all whitespace. -/
theorem jsTrim_eq_nil_iff {l : Str} : jsTrim l = [] ↔ ∀ c ∈ l, isWs c = true := by
  unfold jsTrim
  rw [List.reverse_eq_nil_iff, List.dropWhile_eq_nil_iff]
  constructor
  · intro h c hc
    have hsplit := List.takeWhile_append_dropWhile isWs l
    rcases List.mem_append.mp (by rw [hsplit]; exact hc :
        c ∈ List.takeWhile isWs l ++ List.dropWhile isWs l) with hm | hm
    · exact List.mem_takeWhile_imp hm
    · exact h c (List.mem_reverse.mpr hm)
  · intro h c hc
    exact h c ((List.dropWhile_sublist isWs).subset (List.mem_reverse.mp hc))

/-- A non-blank line: one non-whitespace character keeps it. -/
theorem jsTrim_ne_nil {l : Str} {c : Char} (hc : c ∈ l) (hw : isWs c = false) :
    jsTrim l ≠ [] := by
  intro h
  rw [jsTrim_eq_nil_iff] at h
  rw [h c hc] at hw
  cases hw

/-- A trim-stable nonempty string contains a non-whitespace character. -/
theorem exists_not_ws_of_trim_stable {l : Str} (h : jsTrim l = l) (hne : l ≠ []) :
    ∃ c ∈ l, isWs c = false := by
  by_contra hall
  push_neg at hall
  have : ∀ c ∈ l, isWs c = true := by
    intro c hc
    cases hw : isWs c
    · exact absurd hw (hall c hc)
    · rfl
  exact hne (h ▸ jsTrim_eq_nil_iff.mpr this)

/-- Membership in a joined list, from the first piece. -/
theorem mem_intercalate_of_mem_head {sep : Char} {c : Char} {p : Str} (ps : List Str)
    (hc : c ∈ p) : c ∈ List.intercalate [sep] (p :: ps) := by
  cases ps with
  | nil => rw [intercalate_single]; exact hc
  | cons q qs =>
    rw [intercalate_two]
    exact List.mem_append.mpr (Or.inl (List.mem_append.mpr (Or.inl hc)))

/-- A character absent from the separator and every piece is absent
from the join. -/
theorem not_mem_intercalate {sep c : Char} (hcs : c ≠ sep) :
    ∀ {ps : List Str}, (∀ p ∈ ps, c ∉ p) → c ∉ List.intercalate [sep] ps
  | [], _ => by simp [List.intercalate]
  | [p], h => by
    rw [intercalate_single]
    exact h p (List.mem_cons_self p [])
  | p :: q :: ps, h => by
    rw [intercalate_two]
    intro hm
    rcases List.mem_append.mp hm with hm | hm
    · rcases List.mem_append.mp hm with hm | hm
      · exact h p (List.mem_cons_self p _) hm
      · exact hcs (List.mem_singleton.mp hm)
    · exact not_mem_intercalate hcs (fun r hr => h r (List.mem_cons_of_mem p hr)) hm

/-! ### Parsing a serialized line -/

/-- Doubling quotes is the identity on quote-free strings. -/
theorem dupQuotes_eq {v : Str} (h : '"' ∉ v) : dupQuotes v = v := by
  induction v with
  | nil => rfl
  | cons c cs ih =>
    have hc : ¬ c = '"' := fun hh => h (hh ▸ List.mem_cons_self c cs)
    unfold dupQuotes at ih ⊢
    simp only [List.foldr_cons]
    rw [if_neg hc, ih (fun hm => h (List.mem_cons_of_mem c hm))]

/-- Inside quotes every character, commas included, is appended to the
current field. -/
theorem parseCSVLineGo_inQuotes :
    ∀ {v : Str}, '"' ∉ v → ∀ (cur rest : Str),
      parseCSVLineGo (v ++ rest) cur true = parseCSVLineGo rest (cur ++ v) true
  | [], _, cur, rest => by simp
  | c :: v, h, cur, rest => by
    have hc : ¬ c = '"' := fun hh => h (hh ▸ List.mem_cons_self c v)
    show parseCSVLineGo (c :: (v ++ rest)) cur true = _
    conv_lhs => rw [parseCSVLineGo]
    rw [if_neg hc]
    have hcond : (decide (c = ',') && !true) = false := by simp
    simp only [hcond, Bool.false_eq_true, if_false]
    rw [parseCSVLineGo_inQuotes (fun hm => h (List.mem_cons_of_mem c hm)) (cur ++ [c]) rest]
    rw [List.append_assoc, List.singleton_append]

/-- Consuming one serialized field: the opening quote turns quoting on,
the field body is accumulated, the closing quote turns it off. -/
theorem parseCSVLineGo_field {v : Str} (hq : '"' ∉ v) (rest : Str) :
    parseCSVLineGo (csvField v ++ rest) [] false = parseCSVLineGo rest v false := by
  show parseCSVLineGo ('"' :: ((dupQuotes v ++ ['"']) ++ rest)) [] false = _
  rw [dupQuotes_eq hq]
  conv_lhs => rw [parseCSVLineGo]
  rw [if_pos rfl]
  show parseCSVLineGo ((v ++ ['"']) ++ rest) [] true = _
  rw [List.append_assoc]
  rw [parseCSVLineGo_inQuotes hq [] (['"'] ++ rest)]
  show parseCSVLineGo ('"' :: rest) v true = _
  conv_lhs => rw [parseCSVLineGo]
  rw [if_pos rfl]
  rfl

/-- Parsing the comma-join of quote-wrapped quote-free fields yields
the trimmed fields. -/
theorem parseCSVLine_quoted :
    ∀ {vs : List Str}, vs ≠ [] → (∀ v ∈ vs, '"' ∉ v) →
      parseCSVLineGo (List.intercalate [','] (vs.map csvField)) [] false =
        vs.map jsTrim
  | [], h, _ => absurd rfl h
  | [v], _, hall => by
    have hq : '"' ∉ v := hall v (List.mem_cons_self v [])
    rw [List.map_cons, List.map_nil, intercalate_single]
    rw [← List.append_nil (csvField v), parseCSVLineGo_field hq []]
    rfl
  | v :: w :: vs, _, hall => by
    have hq : '"' ∉ v := hall v (List.mem_cons_self v _)
    show parseCSVLineGo (List.intercalate [',']
      (csvField v :: csvField w :: List.map csvField vs)) [] false = _
    rw [intercalate_two, List.append_assoc, List.singleton_append]
    rw [parseCSVLineGo_field hq _]
    conv_lhs => rw [parseCSVLineGo]
    have hcq : ¬ (',' = '"') := by decide
    rw [if_neg hcq]
    have hcond : (decide (',' = ',') && !false) = true := by decide
    simp only [hcond, if_true]
    have hrec := @parseCSVLine_quoted (w :: vs) (by simp)
      (fun r hr => hall r (List.mem_cons_of_mem v hr))
    rw [List.map_cons] at hrec
    rw [hrec]
    rfl

/-! ### Record-level round-trip lemmas -/

/-- Field lookup finds the head pair's value under its own key. -/
theorem getField_cons_self (k v : Str) (rest : Record) :
    getField ((k, v) :: rest) k = some v := by
  conv_lhs => rw [getField]
  rw [if_pos rfl]

/-- Field lookup skips a head pair with a different key. -/
theorem getField_cons_ne {k a : Str} (v : Str) (rest : Record) (h : ¬ k = a) :
    getField ((k, v) :: rest) a = getField rest a := by
  conv_lhs => rw [getField]
  rw [if_neg h]

/-- Looking the record's own keys up in order recovers its values in
order (keys must be distinct, as they are in a JS object). -/
theorem getField_map_keys :
    ∀ (r : Record), (r.map Prod.fst).Nodup →
      (r.map Prod.fst).map (fun a => jsOrEmpty (getField r a)) = r.map Prod.snd
  | [], _ => rfl
  | (k, v) :: rest, hnod => by
    have hk : k ∉ rest.map Prod.fst := (List.nodup_cons.mp hnod).1
    have ih := getField_map_keys rest (List.nodup_cons.mp hnod).2
    simp only [List.map_cons]
    congr 1
    · show jsOrEmpty (getField ((k, v) :: rest) k) = v
      rw [getField_cons_self]
      rfl
    · rw [← ih]
      apply List.map_congr_left
      intro a ha
      have hak : ¬ (k = a) := fun hh => hk (hh ▸ ha)
      show jsOrEmpty (getField ((k, v) :: rest) a) = jsOrEmpty (getField rest a)
      rw [getField_cons_ne v rest hak]

/-- A record's serialized line is the join of its quoted values. -/
theorem csvLine_eq {ks : List Str} {r : Record} (hk : r.map Prod.fst = ks)
    (hnod : ks.Nodup) :
    csvLine ks r = List.intercalate [','] ((r.map Prod.snd).map csvField) := by
  unfold csvLine
  congr 1
  rw [← getField_map_keys r (by rw [hk]; exact hnod), ← hk]
  rw [List.map_map, List.map_map, List.map_map]
  rfl

/-- Zipping a record's keys with its values rebuilds the record: the
`|| ''` guard is the identity on a present string value. -/
theorem buildRow_eq : ∀ {r : Record},
    buildRow (r.map Prod.fst) (r.map Prod.snd) = r
  | [] => rfl
  | (k, v) :: rest => by
    show buildRow (k :: rest.map Prod.fst) (v :: rest.map Prod.snd) = (k, v) :: rest
    unfold buildRow
    rw [List.zip_cons_cons, List.map_cons]
    congr 1
    · show (k, if v = [] then [] else v) = (k, v)
      by_cases hv : v = []
      · simp [hv]
      · simp [hv]
    · exact buildRow_eq (r := rest)

/-- Parsing a record's serialized line recovers its values. -/
theorem parseCSVLine_csvLine {ks : List Str} {r : Record}
    (hk : r.map Prod.fst = ks) (hnod : ks.Nodup) (hne : r ≠ [])
    (hvals : ∀ p ∈ r, '"' ∉ p.2 ∧ jsTrim p.2 = p.2) :
    parseCSVLine (csvLine ks r) = r.map Prod.snd := by
  rw [csvLine_eq hk hnod]
  unfold parseCSVLine
  rw [parseCSVLine_quoted (by simpa using hne) ?hq]
  case hq =>
    intro v hv
    obtain ⟨p, hp, hpv⟩ := List.mem_map.mp hv
    exact hpv ▸ (hvals p hp).1
  have hid : ∀ v ∈ r.map Prod.snd, jsTrim v = v := by
    intro v hv
    obtain ⟨p, hp, hpv⟩ := List.mem_map.mp hv
    exact hpv ▸ (hvals p hp).2
  rw [List.map_congr_left hid, List.map_id']

/-- The `removeQuotes` is the identity on quote-free strings. -/
theorem removeQuotes_eq {k : Str} (h : '"' ∉ k) : removeQuotes k = k := by
  refine List.filter_eq_self.mpr (fun c hc => ?_)
  simp only [decide_eq_true_eq]
  exact fun hh => h (hh ▸ hc)

/-- A character absent from a quote-free field body, and distinct from
the quote, is absent from the serialized field. -/
theorem not_mem_csvField {c : Char} {v : Str} (hq : '"' ∉ v) (hcv : c ∉ v)
    (hc : c ≠ '"') : c ∉ csvField v := by
  unfold csvField
  rw [dupQuotes_eq hq]
  intro hm
  rcases List.mem_cons.mp hm with hm | hm
  · exact hc hm
  · rcases List.mem_append.mp hm with hm | hm
    · exact hcv hm
    · exact hc (List.mem_singleton.mp hm)

/-- The data-row loop maps each serialized record line back to the
record. -/
theorem rowsLoop_roundtrip {ks : List Str} (hnod : ks.Nodup) (hks0 : ks ≠ []) :
    ∀ (ls : List Record), (∀ r ∈ ls, r.map Prod.fst = ks) →
      (∀ r ∈ ls, ∀ p ∈ r, '"' ∉ p.2 ∧ jsTrim p.2 = p.2) →
      rowsLoop ks (ls.map (csvLine ks)) = ls
  | [], _, _ => rfl
  | r :: ls, hk, hv => by
    have hkr : r.map Prod.fst = ks := hk r (List.mem_cons_self r ls)
    have hrne : r ≠ [] := by
      intro hh
      rw [hh] at hkr
      exact hks0 hkr.symm
    have hparse : parseCSVLine (csvLine ks r) = r.map Prod.snd :=
      parseCSVLine_csvLine hkr hnod hrne (hv r (List.mem_cons_self r ls))
    rw [List.map_cons]
    unfold rowsLoop
    simp only [hparse]
    have hlen : (r.map Prod.snd).length = ks.length := by
      rw [List.length_map, ← hkr, List.length_map]
    rw [if_pos hlen]
    congr 1
    · rw [← hkr, buildRow_eq]
    · exact rowsLoop_roundtrip hnod hks0 ls
        (fun q hq => hk q (List.mem_cons_of_mem r hq))
        (fun q hq => hv q (List.mem_cons_of_mem r hq))

/-! ### C1 — CSV round trip -/

/-- C1 counterexample: the claim requires only homogeneous fields and
newline-free values.  A value consisting of one double quote satisfies
that, is exported as `""""` (quote doubled, then wrapped), but
`parseCSVLine` only toggles its quote state on `"` and never undoubles,
so the quote is lost on re-parse. -/
theorem csv_roundtrip_counterexample :
    ([[(chars ("A"), chars ("\""))]] : List Record) ≠ []
    ∧ (∀ r ∈ ([[(chars ("A"), chars ("\""))]] : List Record),
        r.map Prod.fst = [chars ("A")])
    ∧ (∀ r ∈ ([[(chars ("A"), chars ("\""))]] : List Record), ∀ p ∈ r, '\n' ∉ p.2)
    ∧ parseCSV (exportToCSV [[(chars ("A"), chars ("\""))]])
        ≠ [[(chars ("A"), chars ("\""))]] := by
  refine ⟨by decide, by decide, by decide, by decide⟩

/-- C1 (amended): the round trip `parseCSV (exportToCSV leads) = leads`
holds for a non-empty collection of records that share one non-empty
duplicate-free key list, provided additionally that the field names are
trim-stable and contain no comma, double quote or newline, and that the
field values are trim-stable and contain no double quote or newline.
(The counterexample forces the quote and trim-stability conditions:
quotes are destroyed by the non-undoubling parser, and every parsed
field is trimmed.) -/
theorem csv_roundtrip_amended (leads : List Record) (ks : List Str)
    (hne : leads ≠ [])
    (hks : ∀ r ∈ leads, r.map Prod.fst = ks)
    (hks0 : ks ≠ [])
    (hnod : ks.Nodup)
    (hkeys : ∀ k ∈ ks, k ≠ [] ∧ jsTrim k = k ∧ ',' ∉ k ∧ '"' ∉ k ∧ '\n' ∉ k)
    (hvals : ∀ r ∈ leads, ∀ p ∈ r, '\n' ∉ p.2 ∧ '"' ∉ p.2 ∧ jsTrim p.2 = p.2) :
    parseCSV (exportToCSV leads) = leads := by
  obtain ⟨r0, rest, rfl⟩ : ∃ r0 rest, leads = r0 :: rest := by
    cases leads with
    | nil => exact absurd rfl hne
    | cons a b => exact ⟨a, b, rfl⟩
  have hk0 : r0.map Prod.fst = ks := hks r0 (List.mem_cons_self _ _)
  have hexp : exportToCSV (r0 :: rest) =
      List.intercalate ['\n']
        (List.intercalate [','] ks :: (r0 :: rest).map (csvLine ks)) := by
    show List.intercalate ['\n']
        (List.intercalate [','] (r0.map Prod.fst)
          :: (r0 :: rest).map (csvLine (r0.map Prod.fst))) = _
    rw [hk0]
  have hlineNoNl : '\n' ∉ List.intercalate [','] ks :=
    not_mem_intercalate (by decide) (fun k hk => (hkeys k hk).2.2.2.2)
  have hvline : ∀ r ∈ (r0 :: rest), '\n' ∉ csvLine ks r := by
    intro r hr
    rw [csvLine_eq (hks r hr) hnod]
    refine not_mem_intercalate (by decide) ?_
    intro p hp hmem
    obtain ⟨q, hq, hqp⟩ := List.mem_map.mp hp
    obtain ⟨pr, hpr, hprq⟩ := List.mem_map.mp hq
    have hvq := hvals r hr pr hpr
    exact not_mem_csvField (hprq ▸ hvq.2.1) (hprq ▸ hvq.1) (by decide) (hqp ▸ hmem)
  have hsplit : splitCh '\n' (exportToCSV (r0 :: rest)) =
      List.intercalate [','] ks :: (r0 :: rest).map (csvLine ks) := by
    rw [hexp]
    refine splitCh_intercalate (by simp) ?_
    intro p hp
    rcases List.mem_cons.mp hp with hp | hp
    · exact hp ▸ hlineNoNl
    · obtain ⟨r, hr, hrp⟩ := List.mem_map.mp hp
      exact hrp ▸ hvline r hr
  have hcsvLines : csvLines (exportToCSV (r0 :: rest)) =
      List.intercalate [','] ks :: (r0 :: rest).map (csvLine ks) := by
    unfold csvLines
    rw [hsplit]
    refine List.filter_eq_self.mpr ?_
    intro l hl
    rcases List.mem_cons.mp hl with hl | hl
    · obtain ⟨k1, ktl, hks'⟩ : ∃ k1 ktl, ks = k1 :: ktl := by
        cases ks with
        | nil => exact absurd rfl hks0
        | cons a b => exact ⟨a, b, rfl⟩
      have hkey1 := hkeys k1 (hks' ▸ List.mem_cons_self k1 ktl)
      obtain ⟨c, hc, hcw⟩ := exists_not_ws_of_trim_stable hkey1.2.1 hkey1.1
      have hmem : c ∈ List.intercalate [','] ks := by
        rw [hks']
        exact mem_intercalate_of_mem_head ktl hc
      exact decide_eq_true (hl ▸ jsTrim_ne_nil hmem hcw)
    · obtain ⟨r, hr, hrl⟩ := List.mem_map.mp hl
      obtain ⟨v1, vtl, hv'⟩ : ∃ v1 vtl, r.map Prod.snd = v1 :: vtl := by
        cases hvv : r.map Prod.snd with
        | nil =>
          have hkr := hks r hr
          cases r with
          | nil => rw [← hkr] at hks0; exact absurd rfl hks0
          | cons p pr => exact absurd hvv (by simp)
        | cons a b => exact ⟨a, b, rfl⟩
      have hq : '"' ∈ csvLine ks r := by
        rw [csvLine_eq (hks r hr) hnod, hv', List.map_cons]
        exact mem_intercalate_of_mem_head _ (List.mem_cons_self '"' _)
      have hql : '"' ∈ l := hrl ▸ hq
      exact decide_eq_true (jsTrim_ne_nil hql (by decide))
  have hheaders : csvHeaders (exportToCSV (r0 :: rest)) = ks := by
    unfold csvHeaders
    rw [hcsvLines]
    show (splitCh ',' (List.intercalate [','] ks)).map
      (fun h => removeQuotes (jsTrim h)) = ks
    rw [splitCh_intercalate hks0 (fun k hk => (hkeys k hk).2.2.1)]
    have : ∀ k ∈ ks, removeQuotes (jsTrim k) = k := by
      intro k hk
      rw [(hkeys k hk).2.1, removeQuotes_eq (hkeys k hk).2.2.2.1]
    rw [List.map_congr_left this, List.map_id']
  unfold parseCSV
  rw [hcsvLines, hheaders]
  rw [if_neg (by simp)]
  show rowsLoop ks ((r0 :: rest).map (csvLine ks)) = r0 :: rest
  exact rowsLoop_roundtrip hnod hks0 (r0 :: rest) hks
    (fun r hr p hp => ⟨(hvals r hr p hp).2.1, (hvals r hr p hp).2.2⟩)

/-- C1 witness: a concrete two-record collection with shared keys and a
value containing a comma round-trips exactly. -/
theorem csv_roundtrip_amended_witness :
    parseCSV (exportToCSV [recA, recB]) = [recA, recB] :=
  csv_roundtrip_amended [recA, recB]
    [chars ("ID"), chars ("Lead Name"), chars ("Stage"), chars ("Created")]
    (by decide) (by decide) (by decide) (by decide) (by decide) (by decide)
